import Mathlib

/-
Verification development for the starling-store repository.

This file gives a shallow embedding of the two core components:

* `blob_cid_shard/src/main.rs` — the `FileSharder` chunking engine
  (`shard_file`, `generate_global_cid`, `reassemble_file`);
* `rust_exif_merkle/src/merkle.rs` — the Merkle engine
  (`MerkleNode::new`, `MerkleNode::from_children`, `build_merkle_tree`,
  `MerkleNode::verify`).

Bytes are modelled as `Nat` values below 256, byte strings as `List Nat`.
The Rust `u32`/`u64` casts that matter are made explicit with `% 2^32`
(resp. big-endian byte extraction below).  All definitions are structurally
recursive (loops are given explicit fuel equal to a bound on their trip
count) so that every definition evaluates inside the kernel.
-/

set_option maxRecDepth 8000
set_option maxHeartbeats 2000000

namespace StarlingStore

/-! ## SHA-256 (the `sha2` crate's `Sha256`)

A direct executable model of FIPS 180-4 SHA-256 over byte lists.
32-bit words are `Nat` values kept below `2 ^ 32` by `wrap32`. -/

def wrap32 (x : Nat) : Nat := x % 4294967296

def rotr32 (n x : Nat) : Nat := wrap32 ((x >>> n) ||| (x <<< (32 - n)))

def smallSigma0 (x : Nat) : Nat := (rotr32 7 x) ^^^ (rotr32 18 x) ^^^ (x >>> 3)

def smallSigma1 (x : Nat) : Nat := (rotr32 17 x) ^^^ (rotr32 19 x) ^^^ (x >>> 10)

def bigSigma0 (x : Nat) : Nat := (rotr32 2 x) ^^^ (rotr32 13 x) ^^^ (rotr32 22 x)

def bigSigma1 (x : Nat) : Nat := (rotr32 6 x) ^^^ (rotr32 11 x) ^^^ (rotr32 25 x)

def chFn (x y z : Nat) : Nat := (x &&& y) ^^^ ((x ^^^ 4294967295) &&& z)

def majFn (x y z : Nat) : Nat := (x &&& y) ^^^ (x &&& z) ^^^ (y &&& z)

/-- The 64 SHA-256 round constants of FIPS 180-4, written in decimal. -/
def k256 : List Nat :=
  [1116352408, 1899447441, 3049323471, 3921009573, 961987163, 1508970993,
   2453635748, 2870763221, 3624381080, 310598401, 607225278, 1426881987,
   1925078388, 2162078206, 2614888103, 3248222580, 3835390401, 4022224774,
   264347078, 604807628, 770255983, 1249150122, 1555081692, 1996064986,
   2554220882, 2821834349, 2952996808, 3210313671, 3336571891, 3584528711,
   113926993, 338241895, 666307205, 773529912, 1294757372, 1396182291,
   1695183700, 1986661051, 2177026350, 2456956037, 2730485921, 2820302411,
   3259730800, 3345764771, 3516065817, 3600352804, 4094571909, 275423344,
   430227734, 506948616, 659060556, 883997877, 958139571, 1322822218,
   1537002063, 1747873779, 1955562222, 2024104815, 2227730452, 2361852424,
   2428436474, 2756734187, 3204031479, 3329325298]

/-- The eight SHA-256 initial hash words of FIPS 180-4, written in decimal. -/
def initH : List Nat :=
  [1779033703, 3144134277, 1013904242, 2773480762, 1359893119, 2600822924,
   528734635, 1541459225]

/-- Big-endian 8-byte rendering, as Rust's `u64::to_be_bytes`. -/
def be64 (n : Nat) : List Nat :=
  [n / 72057594037927936 % 256, n / 281474976710656 % 256, n / 1099511627776 % 256,
   n / 4294967296 % 256, n / 16777216 % 256, n / 65536 % 256, n / 256 % 256, n % 256]

/-- Big-endian 4-byte rendering of one hash word. -/
def be32 (n : Nat) : List Nat :=
  [n / 16777216 % 256, n / 65536 % 256, n / 256 % 256, n % 256]

/-- SHA-256 padding: append `0x80`, zero bytes up to 56 mod 64, then the
bit length as 8 big-endian bytes. -/
def padMessage (msg : List Nat) : List Nat :=
  msg ++ 128 :: List.replicate ((119 - msg.length % 64) % 64) 0 ++ be64 (msg.length * 8)

/-- Group bytes into 32-bit big-endian words (input length is a multiple of 4). -/
def bytesToWords : List Nat → List Nat
  | a :: b :: c :: d :: rest => (a * 16777216 + b * 65536 + c * 256 + d) :: bytesToWords rest
  | _ => []

/-- Group words into 16-word blocks (input length is a multiple of 16). -/
def toBlocks : List Nat → List (List Nat)
  | w0 :: w1 :: w2 :: w3 :: w4 :: w5 :: w6 :: w7 :: w8 :: w9 :: w10 :: w11 :: w12 :: w13 :: w14 :: w15 :: rest =>
      [w0, w1, w2, w3, w4, w5, w6, w7, w8, w9, w10, w11, w12, w13, w14, w15] :: toBlocks rest
  | _ => []

/-- Extend the 16 block words by one schedule word per step (48 steps total). -/
def extendLoop : Nat → List Nat → List Nat
  | 0, w => w
  | steps + 1, w =>
      let n := w.length
      extendLoop steps (w ++ [wrap32 (smallSigma1 (w.getD (n - 2) 0) + w.getD (n - 7) 0 +
        smallSigma0 (w.getD (n - 15) 0) + w.getD (n - 16) 0)])

/-- One SHA-256 compression round on the eight working variables. -/
def roundStep (w : List Nat) (t : Nat) (s : List Nat) : List Nat :=
  match s with
  | [a, b, c, d, e, f, g, hv] =>
      let t1 := wrap32 (hv + bigSigma1 e + chFn e f g + k256.getD t 0 + w.getD t 0)
      let t2 := wrap32 (bigSigma0 a + majFn a b c)
      [wrap32 (t1 + t2), a, b, c, wrap32 (d + t1), e, f, g]
  | other => other

/-- Compress one 512-bit block into the running state. -/
def compress (state block : List Nat) : List Nat :=
  let w := extendLoop 48 block
  let fin := (List.range 64).foldl (fun s t => roundStep w t s) state
  List.zipWith (fun x y => wrap32 (x + y)) state fin

/-- SHA-256 of a byte list, yielding the 32 digest bytes. -/
def sha256 (msg : List Nat) : List Nat :=
  (((toBlocks (bytesToWords (padMessage msg))).foldl compress initH).map be32).flatten

/-! ## Hex rendering (the `hex` crate's `encode` / `decode`) -/

def hexDigit (n : Nat) : Char := if n < 10 then Char.ofNat (48 + n) else Char.ofNat (87 + n)

def hexEncodeChars : List Nat → List Char
  | [] => []
  | b :: rest => hexDigit (b / 16) :: hexDigit (b % 16) :: hexEncodeChars rest

/-- Model of `hex::encode`: lowercase hex rendering of a byte list. -/
def hexEncode (bs : List Nat) : String := String.mk (hexEncodeChars bs)

def hexVal (c : Char) : Option Nat :=
  if 48 ≤ c.toNat ∧ c.toNat ≤ 57 then some (c.toNat - 48)
  else if 97 ≤ c.toNat ∧ c.toNat ≤ 102 then some (c.toNat - 87)
  else if 65 ≤ c.toNat ∧ c.toNat ≤ 70 then some (c.toNat - 55)
  else none

def hexDecodeChars : List Char → Option (List Nat)
  | [] => some []
  | c1 :: c2 :: rest =>
      match hexVal c1, hexVal c2, hexDecodeChars rest with
      | some hi, some lo, some tl => some ((hi * 16 + lo) :: tl)
      | _, _, _ => none
  | _ => none

/-- Model of `hex::decode`: parse a hex string back into bytes (`none` on bad input). -/
def hexDecode (s : String) : Option (List Nat) := hexDecodeChars s.data

/-! ## UTF-8 byte rendering (Rust's `str::as_bytes`) -/

def charUtf8 (c : Char) : List Nat :=
  let n := c.toNat
  if n < 128 then [n]
  else if n < 2048 then [192 + n / 64, 128 + n % 64]
  else if n < 65536 then [224 + n / 4096, 128 + n / 64 % 64, 128 + n % 64]
  else [240 + n / 262144, 128 + n / 4096 % 64, 128 + n / 64 % 64, 128 + n % 64]

def strBytes (s : String) : List Nat := (s.data.map charUtf8).flatten

/-! ## CID v1 text rendering (the `cid` and `multihash` crates)

`Multihash::wrap(0x12, d)` produces `varint 0x12 ++ varint d.len ++ d`;
`Cid::new_v1(0x55, mh)` prepends `varint 1 ++ varint 0x55`; `Cid::to_string`
for v1 is the lowercase RFC 4648 base32 (no padding) of those bytes behind a
`b` multibase prefix. -/

def varintAux : Nat → Nat → List Nat
  | 0, _ => []
  | fuel + 1, n => if n < 128 then [n] else (128 + n % 128) :: varintAux fuel (n / 128)

/-- Unsigned LEB128 varint (10 bytes cover every `u64`). -/
def varint (n : Nat) : List Nat := varintAux 10 n

def bitsOfByte (b : Nat) : List Nat :=
  [b / 128 % 2, b / 64 % 2, b / 32 % 2, b / 16 % 2, b / 8 % 2, b / 4 % 2, b / 2 % 2, b % 2]

/-- Group a bit list into 5-bit big-endian quintets, zero-padding the tail. -/
def quintets : List Nat → List Nat
  | [] => []
  | b0 :: b1 :: b2 :: b3 :: b4 :: rest => (b0 * 16 + b1 * 8 + b2 * 4 + b3 * 2 + b4) :: quintets rest
  | bs => [(bs ++ List.replicate (5 - bs.length) 0).foldl (fun a b => a * 2 + b) 0]

def base32Char (n : Nat) : Char := "abcdefghijklmnopqrstuvwxyz234567".data.getD n 'a'

/-- Lowercase unpadded RFC 4648 base32 of a byte list. -/
def base32Chars (bs : List Nat) : List Char := (quintets ((bs.map bitsOfByte).flatten)).map base32Char

/-- Model of `Cid::new_v1(codec, Multihash::wrap(code, digest)).to_string()`. -/
def cidToString (version codec hashCode : Nat) (digest : List Nat) : String :=
  String.mk ('b' :: base32Chars (varint version ++ varint codec ++ varint hashCode ++
    varint digest.length ++ digest))

/-- The CID rendering used by `generate_global_cid`: version 1, raw codec
(0x55), SHA2-256 multihash (0x12). -/
def cidRender (digest : List Nat) : String := cidToString 1 85 18 digest

/-! ## Decimal formatting (Rust's `format!` with the `{:03}` spec)

`format!("chunk_{:03}.part", i)` renders `i` in decimal, zero-padded on the
left to a minimum width of 3. -/

def decChar (d : Nat) : Char := Char.ofNat (48 + d)

/-- Big-endian decimal digits of `n`, accumulator style; `fuel ≥ n` suffices
since the value shrinks by a factor of 10 each step. -/
def natDigitsAux : Nat → Nat → List Char → List Char
  | 0, n, acc => decChar n :: acc
  | fuel + 1, n, acc =>
      if n < 10 then decChar n :: acc
      else natDigitsAux fuel (n / 10) (decChar (n % 10) :: acc)

def natDecimal (n : Nat) : List Char := natDigitsAux n n []

def zeroPad (width : Nat) (cs : List Char) : List Char :=
  List.replicate (width - cs.length) '0' ++ cs

/-- Model of the filename format: decimal index zero-padded to width 3 between
`chunk_` and `.part`. -/
def chunkFilename (i : Nat) : String :=
  String.mk ("chunk_".data ++ zeroPad 3 (natDecimal i) ++ ".part".data)

/-- Verification artifact (not part of the source): decimal digit value of a
character, used to decode `natDecimal` and prove `chunkFilename` injective. -/
def charDigitVal (c : Char) : Nat := c.toNat - 48

/-- Verification artifact: big-endian decimal value of a digit list. -/
def decodeDecimal (cs : List Char) : Nat := cs.foldl (fun a c => a * 10 + charDigitVal c) 0

/-! ## Data model (`blob_cid_shard`)

`ChunkInfo` and `ShardMetadata` mirror the serde structs; `chunk_count` is a
Rust `u32` produced by `chunks.len() as u32`, hence the `% 2 ^ 32`.  The
chunk store — the output directory holding one file per chunk — is a map
from filename to stored bytes. -/

structure ChunkInfo where
  filename : String
  size : Nat
  sha256 : String
deriving DecidableEq, Repr

structure ShardMetadata where
  original_file : String
  total_size : Nat
  chunk_count : Nat
  chunks : List ChunkInfo
  cid : String
deriving DecidableEq, Repr

def Store : Type := String → Option (List Nat)

/-- Errors signalled by the sharder (all are `std::io::Error` values built
with `ErrorKind::InvalidData` or raised by file access in the source; the
payloads here record exactly what the formatted messages record). -/
inductive ShardError where
  | invalidHex
  | chunkMissing (filename : String)
  | integrityFailure (index : Nat)
  | sizeMismatch (expected actual : Nat)
deriving DecidableEq, Repr

def dummyChunk : ChunkInfo := { filename := "", size := 0, sha256 := "" }

/-! ## The chunking loop of `FileSharder::shard_file`

The source computes `chunk_count = (file_size + chunk_size - 1) / chunk_size`
from the declared file length, then loops `chunk_index in 0..chunk_count`,
each iteration reading up to `chunk_size` bytes and breaking on a zero-length
read.  The byte source is modelled as the list of bytes the reader can still
deliver: a read takes `min chunk_size remaining` bytes, so a source that
delivers fewer bytes than the declared length ends the loop early, exactly as
`break` does.  `chunk_size > 0` is assumed throughout (a zero chunk size
makes the Rust division panic). -/

def chunkCount (file_size chunk_size : Nat) : Nat :=
  (file_size + chunk_size - 1) / chunk_size

/-- The reads performed by the loop: at most `k` (the computed chunk count)
reads of up to `c` bytes, stopping on an empty read. -/
def readPieces (c : Nat) : Nat → List Nat → List (List Nat)
  | 0, _ => []
  | k + 1, data =>
      let piece := data.take c
      if piece.length = 0 then [] else piece :: readPieces c k (data.drop c)

def shardPieces (c total : Nat) (data : List Nat) : List (List Nat) :=
  readPieces c (chunkCount total c) data

/-- The `ChunkInfo` pushed for chunk index `i` holding bytes `piece`. -/
def mkChunkInfo (i : Nat) (piece : List Nat) : ChunkInfo :=
  { filename := chunkFilename i, size := piece.length, sha256 := hexEncode (sha256 piece) }

def chunkInfos (i : Nat) : List (List Nat) → List ChunkInfo
  | [] => []
  | p :: ps => mkChunkInfo i p :: chunkInfos (i + 1) ps

/-- The chunk files written by the loop: one store entry per piece, keyed by
its filename (later writes overwrite earlier ones, as on a filesystem). -/
def writeStore (i : Nat) : List (List Nat) → Store → Store
  | [], st => st
  | p :: ps, st => writeStore (i + 1) ps (Function.update st (chunkFilename i) (some p))

/-! ## `FileSharder::generate_global_cid` -/

/-- The bytes fed to the global hasher for the chunk list: for each chunk in
order, its filename bytes, its size as 8 big-endian bytes, and its hex-decoded
digest (`none` if some recorded digest is not valid hex). -/
def chunksPayload : List ChunkInfo → Option (List Nat)
  | [] => some []
  | ch :: rest =>
      match hexDecode ch.sha256, chunksPayload rest with
      | some digest, some tl => some (strBytes ch.filename ++ be64 ch.size ++ digest ++ tl)
      | _, _ => none

/-- Model of `FileSharder::generate_global_cid`: hash the filename bytes, the total
size as 8 big-endian bytes, and each chunk's filename/size/digest in order
(successive `hasher.update` calls hash the concatenation of their inputs),
then wrap the digest as a CIDv1 raw / SHA2-256 text string. -/
def generate_global_cid (chunks : List ChunkInfo) (original_filename : String)
    (total_size : Nat) : Except ShardError String :=
  match chunksPayload chunks with
  | none => .error .invalidHex
  | some payload =>
      .ok (cidRender (sha256 (strBytes original_filename ++ be64 total_size ++ payload)))

/-! ## `FileSharder::shard_file` and `FileSharder::reassemble_file` -/

/-- Model of `FileSharder::shard_file`, over a byte source delivering `data` whose
metadata declares length `total` (for an ordinary file, `total = data.length`).
Returns the metadata and the store of written chunk files. -/
def shard_file (c : Nat) (input_name : String) (data : List Nat) (total : Nat) :
    Except ShardError (ShardMetadata × Store) :=
  match generate_global_cid (chunkInfos 0 (shardPieces c total data)) input_name total with
  | .error e => .error e
  | .ok cid =>
      .ok ({ original_file := input_name, total_size := total,
             chunk_count := (chunkInfos 0 (shardPieces c total data)).length % 4294967296,
             chunks := chunkInfos 0 (shardPieces c total data), cid := cid },
           writeStore 0 (shardPieces c total data) (fun _ => none))

/-- The reassembly loop: for each chunk in manifest order (enumerated from
`index`), read its file, recompute the digest, compare with the recorded one
(failing with the offending index), and append the bytes to the output. -/
def reassembleChunks (store : Store) : Nat → List ChunkInfo → Except ShardError (List Nat)
  | _, [] => .ok []
  | index, ch :: rest =>
      match store ch.filename with
      | none => .error (.chunkMissing ch.filename)
      | some data =>
          if hexEncode (sha256 data) = ch.sha256 then
            match reassembleChunks store (index + 1) rest with
            | .ok out => .ok (data ++ out)
            | .error e => .error e
          else .error (.integrityFailure index)

/-- Model of `FileSharder::reassemble_file`: run the loop from index 0, then check the
total written length against the manifest's declared size. -/
def reassemble_file (store : Store) (metadata : ShardMetadata) :
    Except ShardError (List Nat) :=
  match reassembleChunks store 0 metadata.chunks with
  | .error e => .error e
  | .ok out =>
      if out.length = metadata.total_size then .ok out
      else .error (.sizeMismatch metadata.total_size out.length)

/-- Shard a source, then reassemble from the produced metadata and chunk
files: the round trip of spec §8. -/
def splitThenReassemble (c : Nat) (input_name : String) (data : List Nat) :
    Except ShardError (List Nat) :=
  match shard_file c input_name data data.length with
  | .error e => .error e
  | .ok (md, store) => reassemble_file store md

def okPart {ε α : Type} : Except ε α → Option α
  | .ok r => some r
  | .error _ => none

/-- The spec's composite-identifier byte stream (§4.1), stated from the
spec's words for the refinement claim: source-name bytes, total length as 8
big-endian bytes, then each chunk's identifier bytes, byte length as 8
big-endian bytes, and digest bytes. -/
def compositeStream (source_name : String) (total_length : Nat)
    (entries : List (ChunkInfo × List Nat)) : List Nat :=
  strBytes source_name ++ be64 total_length ++
    (entries.map (fun e => strBytes e.1.filename ++ be64 e.1.size ++ e.2)).flatten

/-! ## The Merkle engine (`rust_exif_merkle/src/merkle.rs`) -/

inductive MerkleNode : Type where
  | mk : List Nat → Option MerkleNode → Option MerkleNode → MerkleNode

def MerkleNode.hash : MerkleNode → List Nat
  | .mk h _ _ => h

def MerkleNode.left : MerkleNode → Option MerkleNode
  | .mk _ l _ => l

def MerkleNode.right : MerkleNode → Option MerkleNode
  | .mk _ _ r => r

/-- Model of `MerkleNode::new`: a leaf hashing its data, with no children. -/
def MerkleNode.new (data : List Nat) : MerkleNode := .mk (sha256 data) none none

/-- Model of `MerkleNode::from_children`: hash of the two child hashes concatenated. -/
def MerkleNode.from_children (l r : MerkleNode) : MerkleNode :=
  .mk (sha256 (l.hash ++ r.hash)) (some l) (some r)

/-- One level of `build_merkle_tree`'s `while` body: `chunks(2)` pairs
adjacent nodes; a trailing odd node is paired with a clone of itself. -/
def pairUp : List MerkleNode → List MerkleNode
  | [] => []
  | [x] => [MerkleNode.from_children x x]
  | x :: y :: rest => MerkleNode.from_children x y :: pairUp rest

/-- The `while nodes.len() > 1` loop.  Fuel equal to the initial node count
bounds the trip count, since each pass at least halves a list of length > 1
(`pairUp_length` below); `reduceLevels_gives_singleton` shows the fuelled
loop reaches the loop's exit condition, so the fuel is never exhausted. -/
def reduceLevels : Nat → List MerkleNode → List MerkleNode
  | 0, nodes => nodes
  | fuel + 1, nodes => if 1 < nodes.length then reduceLevels fuel (pairUp nodes) else nodes

/-- Model of `build_merkle_tree`: `None` on an empty leaf list, else hash every leaf
and reduce level by level; `nodes.pop().unwrap()` takes the last (sole)
remaining node. -/
def build_merkle_tree (leaves : List (List Nat)) : Option MerkleNode :=
  if leaves.isEmpty then none
  else (reduceLevels (leaves.map MerkleNode.new).length (leaves.map MerkleNode.new)).getLast?

/-- Model of `MerkleNode::verify`: rebuild a tree from the candidate leaves and compare
root hashes; `false` when no tree can be built. -/
def MerkleNode.verify (self : MerkleNode) (data : List (List Nat)) : Bool :=
  match build_merkle_tree data with
  | some t => self.hash == t.hash
  | none => false

/-- Composition of `verify` with the result of `build`, as the spec's
`verify(build(L), L')` composition (false against "no tree"). -/
def verifyAgainst (root : Option MerkleNode) (data : List (List Nat)) : Bool :=
  match root with
  | some node => node.verify data
  | none => false

/-! ## Concrete instances used to witness the theorems below -/

def fallbackMeta : ShardMetadata :=
  { original_file := "", total_size := 0, chunk_count := 0, chunks := [], cid := "" }

/-- The shard of the two-byte source `[5, 6]` with chunk size 2. -/
def shardW2 : ShardMetadata × Store :=
  match shard_file 2 "w2" [5, 6] 2 with
  | .ok r => r
  | .error _ => (fallbackMeta, fun _ => none)

/-- The shard of the three-byte source `[7, 8, 9]` with chunk size 2. -/
def shardW4 : ShardMetadata × Store :=
  match shard_file 2 "w4" [7, 8, 9] 3 with
  | .ok r => r
  | .error _ => (fallbackMeta, fun _ => none)

/-- A chunk record whose stored bytes will match its recorded digest. -/
def goodChunkW : ChunkInfo := mkChunkInfo 0 [5]

/-- A chunk record whose recorded digest (`"00"`) cannot match anything. -/
def badChunkW : ChunkInfo := { filename := chunkFilename 1, size := 1, sha256 := "00" }

def mdW8 : ShardMetadata :=
  { original_file := "w8", total_size := 2, chunk_count := 2,
    chunks := [goodChunkW, badChunkW], cid := "" }

def storeW8 : Store := fun name =>
  if name = chunkFilename 0 then some [5]
  else if name = chunkFilename 1 then some [6] else none

/-- A chunk record as produced by the sharder for the one-byte piece `[7]`. -/
def chunkW3 : ChunkInfo := mkChunkInfo 0 [7]

def nodeHashOnlyA : MerkleNode := .mk [1] none none

def nodeHashOnlyB : MerkleNode := .mk [1] (some (MerkleNode.new [0])) none

/-! ## Lemmas: decimal rendering and chunk filename injectivity -/

theorem charDigitVal_decChar (d : Nat) (h : d < 10) : charDigitVal (decChar d) = d := by
  interval_cases d <;> rfl

theorem natDigitsAux_append (fuel : Nat) : ∀ n acc,
    natDigitsAux fuel n acc = natDigitsAux fuel n [] ++ acc := by
  induction fuel with
  | zero => intro n acc; rfl
  | succ fuel ih =>
      intro n acc
      by_cases h : n < 10
      · simp [natDigitsAux, h]
      · simp only [natDigitsAux, if_neg h]
        rw [ih (n / 10) (decChar (n % 10) :: acc), ih (n / 10) [decChar (n % 10)]]
        simp

theorem decVal (fuel : Nat) : ∀ n a, n ≤ fuel →
    List.foldl (fun x c => x * 10 + charDigitVal c) a (natDigitsAux fuel n []) =
      a * 10 ^ (natDigitsAux fuel n []).length + n := by
  induction fuel with
  | zero =>
      intro n a hn
      have hn0 : n = 0 := Nat.le_zero.mp hn
      subst hn0
      simp [natDigitsAux, charDigitVal_decChar 0 (by omega)]
  | succ fuel ih =>
      intro n a hn
      by_cases h : n < 10
      · simp [natDigitsAux, h, charDigitVal_decChar n h]
      · have hdiv : n / 10 ≤ fuel := by
          have h1 : n / 10 < n := Nat.div_lt_self (by omega) (by omega)
          omega
        simp only [natDigitsAux, if_neg h]
        rw [natDigitsAux_append fuel (n / 10) [decChar (n % 10)]]
        rw [List.foldl_append, ih (n / 10) a hdiv]
        have hmod : charDigitVal (decChar (n % 10)) = n % 10 :=
          charDigitVal_decChar (n % 10) (Nat.mod_lt n (by omega))
        simp only [List.foldl_cons, List.foldl_nil, hmod, List.length_append,
          List.length_cons, List.length_nil]
        have := Nat.div_add_mod n 10
        ring_nf
        omega

theorem decodeDecimal_natDecimal (n : Nat) : decodeDecimal (natDecimal n) = n := by
  have := decVal n n 0 (Nat.le_refl n)
  simpa [decodeDecimal, natDecimal] using this

theorem decodeDecimal_zeroPad (w : Nat) (cs : List Char) :
    decodeDecimal (zeroPad w cs) = decodeDecimal cs := by
  unfold decodeDecimal zeroPad
  rw [List.foldl_append]
  congr 1
  induction (w - cs.length) with
  | zero => rfl
  | succ k ih => simpa [List.replicate_succ, charDigitVal] using ih

theorem chunkFilename_injective {i j : Nat} (h : chunkFilename i = chunkFilename j) :
    i = j := by
  unfold chunkFilename at h
  have hdata : "chunk_".data ++ zeroPad 3 (natDecimal i) ++ ".part".data =
      "chunk_".data ++ zeroPad 3 (natDecimal j) ++ ".part".data := by
    have := congrArg String.data h
    simpa using this
  rw [List.append_assoc, List.append_assoc] at hdata
  have hmid := List.append_cancel_right (List.append_cancel_left hdata)
  have hv := congrArg decodeDecimal hmid
  rw [decodeDecimal_zeroPad, decodeDecimal_zeroPad,
    decodeDecimal_natDecimal, decodeDecimal_natDecimal] at hv
  exact hv

/-! ## Lemmas: the chunking loop -/

theorem ceil_mul_ge (n c : Nat) (hc : 0 < c) : n ≤ chunkCount n c * c := by
  unfold chunkCount
  rw [Nat.mul_comm]
  have h1 := Nat.div_add_mod (n + c - 1) c
  have h2 : (n + c - 1) % c < c := Nat.mod_lt _ hc
  omega

theorem readPieces_join (c : Nat) (hc : 0 < c) : ∀ k data,
    List.length data ≤ k * c → (readPieces c k data).flatten = data := by
  intro k
  induction k with
  | zero =>
      intro data hlen
      have : data = [] := List.eq_nil_of_length_eq_zero (by omega)
      simp [readPieces, this]
  | succ k ih =>
      intro data hlen
      rcases data with _ | ⟨b, rest⟩
      · simp [readPieces]
      · have hne : ((b :: rest).take c).length ≠ 0 := by
          rw [List.length_take]
          simp only [List.length_cons]
          omega
        simp only [readPieces, if_neg hne, List.flatten_cons]
        rw [ih ((b :: rest).drop c) ?_, List.take_append_drop]
        rw [List.length_drop]
        have : (k + 1) * c = k * c + c := by ring
        omega

theorem readPieces_map_length (c : Nat) (hc : 0 < c) : ∀ k data,
    List.length data ≤ k * c →
    (readPieces c k data).map List.length =
      List.replicate (data.length / c) c ++
        (if data.length % c = 0 then [] else [data.length % c]) := by
  intro k
  induction k with
  | zero =>
      intro data hlen
      have : data = [] := List.eq_nil_of_length_eq_zero (by omega)
      simp [readPieces, this]
  | succ k ih =>
      intro data hlen
      rcases data with _ | ⟨b, rest⟩
      · simp [readPieces]
      · have hpos : 0 < (b :: rest).length := Nat.zero_lt_succ rest.length
        have hne : ((b :: rest).take c).length ≠ 0 := by
          rw [List.length_take]; omega
        simp only [readPieces, if_neg hne, List.map_cons]
        by_cases hcase : (b :: rest).length < c
        · have hdrop : (b :: rest).drop c = [] := by
            apply List.eq_nil_of_length_eq_zero
            rw [List.length_drop]; omega
          have htake : ((b :: rest).take c).length = (b :: rest).length := by
            rw [List.length_take]; omega
          rw [hdrop]
          have hk0 : readPieces c k [] = [] := by cases k <;> simp [readPieces]
          rw [hk0]
          have hdiv : (b :: rest).length / c = 0 := Nat.div_eq_of_lt hcase
          have hmod : (b :: rest).length % c = (b :: rest).length := Nat.mod_eq_of_lt hcase
          have hne0 : ¬ (b :: rest).length % c = 0 := by omega
          rw [htake, hdiv, hmod, if_neg (by omega : ¬ (b :: rest).length = 0)]
          simp
        · push_neg at hcase
          have htake : ((b :: rest).take c).length = c := by
            rw [List.length_take]; omega
          have hdroplen : ((b :: rest).drop c).length = (b :: rest).length - c := by
            rw [List.length_drop]
          rw [ih ((b :: rest).drop c) ?_]
          · have hdiv : (b :: rest).length / c = ((b :: rest).length - c) / c + 1 :=
              Nat.div_eq_sub_div hc hcase
            have hmod : (b :: rest).length % c = ((b :: rest).length - c) % c :=
              Nat.mod_eq_sub_mod hcase
            rw [htake, hdroplen, hdiv, hmod, List.replicate_succ]
            simp
          · rw [hdroplen]
            have : (k + 1) * c = k * c + c := by ring
            omega

theorem shardPieces_join (c : Nat) (hc : 0 < c) (data : List Nat) :
    (shardPieces c data.length data).flatten = data :=
  readPieces_join c hc _ data (ceil_mul_ge data.length c hc)

theorem shardPieces_map_length (c : Nat) (hc : 0 < c) (data : List Nat) :
    (shardPieces c data.length data).map List.length =
      List.replicate (data.length / c) c ++
        (if data.length % c = 0 then [] else [data.length % c]) :=
  readPieces_map_length c hc _ data (ceil_mul_ge data.length c hc)

/-! ## Lemmas: chunk records -/

theorem chunkInfos_length (ps : List (List Nat)) : ∀ i, (chunkInfos i ps).length = ps.length := by
  induction ps with
  | nil => intro i; rfl
  | cons p ps ih => intro i; simp [chunkInfos, ih]

theorem chunkInfos_map_size (ps : List (List Nat)) : ∀ i,
    (chunkInfos i ps).map (fun ch => ch.size) = ps.map List.length := by
  induction ps with
  | nil => intro i; rfl
  | cons p ps ih => intro i; simp [chunkInfos, mkChunkInfo, ih]

theorem chunkInfos_getD (ps : List (List Nat)) : ∀ i k, i < ps.length →
    (chunkInfos k ps).getD i dummyChunk = mkChunkInfo (k + i) (ps.getD i []) := by
  induction ps with
  | nil => intro i k h; simp at h
  | cons p ps ih =>
      intro i k h
      cases i with
      | zero => simp [chunkInfos]
      | succ i =>
          simp only [chunkInfos, List.getD_cons_succ]
          rw [ih i (k + 1) (by simpa using h)]
          congr 1
          omega

/-! ## Lemmas: hex round trip and digest byte bounds -/

theorem hexVal_hexDigit (d : Nat) (h : d < 16) : hexVal (hexDigit d) = some d := by
  interval_cases d <;> rfl

theorem hexDecode_hexEncode (bs : List Nat) (h : ∀ b ∈ bs, b < 256) :
    hexDecode (hexEncode bs) = some bs := by
  unfold hexDecode hexEncode
  show hexDecodeChars (hexEncodeChars bs) = some bs
  induction bs with
  | nil => rfl
  | cons b bs ih =>
      have hb : b < 256 := h b (List.mem_cons_self b bs)
      have hrest := ih (fun x hx => h x (List.mem_cons_of_mem b hx))
      simp only [hexEncodeChars, hexDecodeChars]
      rw [hexVal_hexDigit (b / 16) (by omega), hexVal_hexDigit (b % 16) (by omega), hrest]
      simp only [Option.some.injEq, List.cons.injEq]
      exact ⟨by omega, trivial⟩

theorem sha256_bytes_lt (msg : List Nat) : ∀ b ∈ sha256 msg, b < 256 := by
  intro b hb
  unfold sha256 at hb
  rw [List.mem_flatten] at hb
  obtain ⟨l, hl, hbl⟩ := hb
  rw [List.mem_map] at hl
  obtain ⟨w, _, hw⟩ := hl
  subst hw
  simp only [be32, List.mem_cons, List.not_mem_nil, or_false] at hbl
  rcases hbl with h | h | h | h <;> subst h <;> exact Nat.mod_lt _ (by omega)

/-! ## Lemmas: the global CID always generates for self-produced chunks -/

theorem chunksPayload_chunkInfos (ps : List (List Nat)) : ∀ i,
    ∃ pl, chunksPayload (chunkInfos i ps) = some pl := by
  induction ps with
  | nil => intro i; exact ⟨[], rfl⟩
  | cons p ps ih =>
      intro i
      obtain ⟨pl, hpl⟩ := ih (i + 1)
      refine ⟨strBytes (chunkFilename i) ++ be64 p.length ++ sha256 p ++ pl, ?_⟩
      simp only [chunkInfos, chunksPayload, mkChunkInfo]
      rw [hexDecode_hexEncode (sha256 p) (sha256_bytes_lt p), hpl]

/-- Normal form of `shard_file`: it always succeeds, with the chunk records,
count, total and written store fully determined. -/
theorem shard_file_ok (c : Nat) (name : String) (data : List Nat) (total : Nat) :
    ∃ cid, shard_file c name data total =
      .ok ({ original_file := name, total_size := total,
             chunk_count := (chunkInfos 0 (shardPieces c total data)).length % 4294967296,
             chunks := chunkInfos 0 (shardPieces c total data), cid := cid },
           writeStore 0 (shardPieces c total data) (fun _ => none)) := by
  obtain ⟨pl, hpl⟩ := chunksPayload_chunkInfos (shardPieces c total data) 0
  refine ⟨cidRender (sha256 (strBytes name ++ be64 total ++ pl)), ?_⟩
  unfold shard_file generate_global_cid
  rw [hpl]

/-! ## Lemmas: the chunk store -/

theorem writeStore_untouched : ∀ (ps : List (List Nat)) (k : Nat) (st : Store) (name : String),
    (∀ m, m < ps.length → name ≠ chunkFilename (k + m)) →
    writeStore k ps st name = st name := by
  intro ps
  induction ps with
  | nil => intro k st name h; rfl
  | cons p ps ih =>
      intro k st name h
      show writeStore (k + 1) ps (Function.update st (chunkFilename k) (some p)) name = st name
      rw [ih (k + 1) _ name ?_]
      · have hne : name ≠ chunkFilename k := by
          have := h 0 (Nat.zero_lt_succ ps.length)
          simpa using this
        simp [Function.update, hne]
      · intro m hm
        have := h (m + 1) (by simpa using Nat.succ_lt_succ hm)
        simpa [Nat.add_assoc, Nat.add_comm 1 m] using this

theorem writeStore_lookup : ∀ (ps : List (List Nat)) (k : Nat) (st : Store)
    (i : Nat), i < ps.length →
    writeStore k ps st (chunkFilename (k + i)) = some (ps.getD i []) := by
  intro ps
  induction ps with
  | nil => intro k st i h; simp at h
  | cons p ps ih =>
      intro k st i h
      cases i with
      | zero =>
          show writeStore (k + 1) ps (Function.update st (chunkFilename k) (some p))
            (chunkFilename (k + 0)) = some p
          rw [writeStore_untouched ps (k + 1) _ (chunkFilename (k + 0)) ?_]
          · simp [Function.update]
          · intro m hm heq
            have := chunkFilename_injective heq
            omega
      | succ i =>
          show writeStore (k + 1) ps (Function.update st (chunkFilename k) (some p))
            (chunkFilename (k + (i + 1))) = some (ps.getD i [])
          have harith : k + (i + 1) = (k + 1) + i := by omega
          rw [harith, ih (k + 1) _ i (by simpa using h)]

/-! ## Lemmas: the reassembly loop -/

theorem reassembleChunks_ok : ∀ (ps : List (List Nat)) (k : Nat) (store : Store),
    (∀ i, i < ps.length → store (chunkFilename (k + i)) = some (ps.getD i [])) →
    reassembleChunks store k (chunkInfos k ps) = .ok ps.flatten := by
  intro ps
  induction ps with
  | nil => intro k store h; rfl
  | cons p ps ih =>
      intro k store h
      have h0 : store (chunkFilename (k + 0)) = some p := by simpa using h 0 (by simp)
      show reassembleChunks store k (mkChunkInfo k p :: chunkInfos (k + 1) ps) = .ok (p :: ps).flatten
      simp only [reassembleChunks, mkChunkInfo]
      rw [show chunkFilename (k + 0) = chunkFilename k from by simp] at h0
      rw [h0, ih (k + 1) store ?_]
      · simp
      · intro i hi
        have := h (i + 1) (by simpa using Nat.succ_lt_succ hi)
        rw [show k + (i + 1) = (k + 1) + i from by omega] at this
        simpa using this

/-! ## Round trip: reassembling the chunks written by `shard_file` -/

theorem reassemble_writeStore (c : Nat) (name cid : String) (data : List Nat) (hc : 0 < c) :
    reassemble_file (writeStore 0 (shardPieces c data.length data) (fun _ => none))
      { original_file := name, total_size := data.length,
        chunk_count := (chunkInfos 0 (shardPieces c data.length data)).length % 4294967296,
        chunks := chunkInfos 0 (shardPieces c data.length data), cid := cid } = .ok data := by
  unfold reassemble_file
  show (match reassembleChunks (writeStore 0 (shardPieces c data.length data) (fun _ => none))
        0 (chunkInfos 0 (shardPieces c data.length data)) with
    | Except.error e => Except.error e
    | Except.ok out =>
        if out.length = data.length then Except.ok out
        else Except.error (ShardError.sizeMismatch data.length out.length)) = Except.ok data
  rw [reassembleChunks_ok (shardPieces c data.length data) 0 _ ?_]
  · rw [shardPieces_join c hc data]
    simp
  · intro i hi
    simpa using writeStore_lookup (shardPieces c data.length data) 0 _ i hi

/-! ## Lemmas: the Merkle engine -/

theorem pairUp_length : ∀ l : List MerkleNode, (pairUp l).length = (l.length + 1) / 2
  | [] => rfl
  | [_] => by simp [pairUp]
  | _ :: _ :: rest => by
      simp only [pairUp, List.length_cons, pairUp_length rest]
      omega

theorem pairUp_ne_nil : ∀ l : List MerkleNode, l ≠ [] → pairUp l ≠ []
  | [], h => absurd rfl h
  | [_], _ => by simp [pairUp]
  | _ :: _ :: _, _ => by simp [pairUp]

theorem reduceLevels_length_le : ∀ (fuel : Nat) (ns : List MerkleNode),
    ns.length ≤ fuel + 1 → (reduceLevels fuel ns).length ≤ 1 := by
  intro fuel
  induction fuel with
  | zero =>
      intro ns h
      simp only [reduceLevels]
      omega
  | succ fuel ih =>
      intro ns h
      simp only [reduceLevels]
      by_cases h1 : 1 < ns.length
      · rw [if_pos h1]
        apply ih
        rw [pairUp_length]
        omega
      · rw [if_neg h1]
        omega

theorem reduceLevels_ne_nil : ∀ (fuel : Nat) (ns : List MerkleNode),
    ns ≠ [] → reduceLevels fuel ns ≠ [] := by
  intro fuel
  induction fuel with
  | zero => intro ns h; simpa [reduceLevels] using h
  | succ fuel ih =>
      intro ns h
      simp only [reduceLevels]
      by_cases h1 : 1 < ns.length
      · rw [if_pos h1]
        exact ih (pairUp ns) (pairUp_ne_nil ns h)
      · rw [if_neg h1]
        exact h

/-- The fuelled `while` loop reaches the loop exit: starting from a non-empty
node list with fuel equal to its length, exactly one node remains. -/
theorem reduceLevels_gives_singleton (ns : List MerkleNode) (h : ns ≠ []) :
    ∃ t, reduceLevels ns.length ns = [t] := by
  have hle : (reduceLevels ns.length ns).length ≤ 1 :=
    reduceLevels_length_le ns.length ns (by omega)
  have hne := reduceLevels_ne_nil ns.length ns h
  rcases hres : reduceLevels ns.length ns with _ | ⟨t, rest⟩
  · exact absurd hres hne
  · rw [hres] at hle
    simp only [List.length_cons] at hle
    have : rest = [] := List.eq_nil_of_length_eq_zero (by omega)
    exact ⟨t, by rw [this]⟩

theorem build_merkle_tree_isSome (L : List (List Nat)) (h : L ≠ []) :
    ∃ t, build_merkle_tree L = some t := by
  unfold build_merkle_tree
  rw [if_neg (by simpa using h)]
  obtain ⟨t, ht⟩ := reduceLevels_gives_singleton (L.map MerkleNode.new)
    (by simpa using h)
  exact ⟨t, by rw [ht]; rfl⟩

theorem build_merkle_tree_eq_none_iff (L : List (List Nat)) :
    build_merkle_tree L = none ↔ L = [] := by
  constructor
  · intro h
    by_contra hne
    obtain ⟨t, ht⟩ := build_merkle_tree_isSome L hne
    rw [h] at ht
    exact Option.noConfusion ht
  · intro h
    simp [build_merkle_tree, h]

/-- Rebuilding from the same leaves yields the recorded root hash, so
`verify` succeeds: shared kernel of the self-verification results. -/
theorem verify_self_aux (L : List (List Nat)) (t : MerkleNode)
    (h : build_merkle_tree L = some t) : t.verify L = true := by
  unfold MerkleNode.verify
  rw [h]
  exact beq_self_eq_true t.hash

/-- Since `verify` only compares root hashes, a differing rebuilt root hash
forces a `false` verdict. -/
theorem verify_false_of_hash_ne (L : List (List Nat)) (root t : MerkleNode)
    (hbuild : build_merkle_tree L = some t) (hne : root.hash ≠ t.hash) :
    root.verify L = false := by
  unfold MerkleNode.verify
  rw [hbuild]
  exact beq_eq_false_iff_ne.mpr hne

theorem MerkleNode.new_hash (d : List Nat) : (MerkleNode.new d).hash = sha256 d := rfl

theorem MerkleNode.from_children_hash (l r : MerkleNode) :
    (MerkleNode.from_children l r).hash = sha256 (l.hash ++ r.hash) := rfl

/-- The duplicate-last-leaf collision of the odd-node rule: appending a copy
of the final leaf of an odd-length list changes nothing, because the build
already pairs that leaf with a clone of itself. -/
theorem build_three_eq_build_four (a b c : List Nat) :
    build_merkle_tree [a, b, c, c] = build_merkle_tree [a, b, c] := rfl

/-! ## Lemmas: shard result extraction and degenerate inputs -/

theorem readPieces_nil (c : Nat) : ∀ k, readPieces c k [] = [] := by
  intro k
  cases k with
  | zero => rfl
  | succ k => simp [readPieces]

/-- What an `.ok` result of `shard_file` pins down about the manifest and
the written store. -/
theorem shard_ok_inv (c : Nat) (name : String) (data : List Nat) (total : Nat)
    (md : ShardMetadata) (st : Store)
    (hok : shard_file c name data total = .ok (md, st)) :
    md.chunks = chunkInfos 0 (shardPieces c total data) ∧
    md.total_size = total ∧
    md.chunk_count = (chunkInfos 0 (shardPieces c total data)).length % 4294967296 := by
  obtain ⟨cid, hsf⟩ := shard_file_ok c name data total
  rw [hsf] at hok
  injection hok with hpair
  injection hpair with h1 h2
  subst h1
  exact ⟨rfl, rfl, rfl⟩

/-! ## Lemmas: the first failing chunk decides the reassembly error -/

theorem reassembleChunks_first_bad : ∀ (cs : List ChunkInfo) (store : Store) (j k : Nat),
    k < cs.length →
    (∀ i, i < k → ∃ d, store ((cs.getD i dummyChunk).filename) = some d ∧
        hexEncode (sha256 d) = (cs.getD i dummyChunk).sha256) →
    (∃ d, store ((cs.getD k dummyChunk).filename) = some d ∧
        hexEncode (sha256 d) ≠ (cs.getD k dummyChunk).sha256) →
    reassembleChunks store j cs = .error (.integrityFailure (j + k)) := by
  intro cs
  induction cs with
  | nil => intro store j k hk _ _; simp at hk
  | cons ch tl ih =>
      intro store j k hk hgood hbad
      cases k with
      | zero =>
          obtain ⟨d, hd, hne⟩ := hbad
          simp only [List.getD_cons_zero] at hd hne
          simp only [reassembleChunks]
          rw [hd]
          dsimp only
          rw [if_neg hne]
          rfl
      | succ k =>
          obtain ⟨d, hd, heq⟩ := hgood 0 (Nat.zero_lt_succ k)
          simp only [List.getD_cons_zero] at hd heq
          simp only [reassembleChunks]
          rw [hd]
          dsimp only
          rw [if_pos heq, ih store (j + 1) k (by simpa using hk) ?_ ?_]
          · dsimp only
            rw [show (j + 1) + k = j + (k + 1) from by omega]
          · intro i hi
            have := hgood (i + 1) (Nat.succ_lt_succ hi)
            simpa using this
          · simpa using hbad

/-! ## Lemmas: the composite-identifier byte stream -/

theorem chunksPayload_of_forall2 : ∀ (chunks : List ChunkInfo) (digests : List (List Nat)),
    List.Forall₂ (fun ch d => ch.sha256 = hexEncode d ∧ d.length = 32 ∧ ∀ b ∈ d, b < 256)
      chunks digests →
    chunksPayload chunks =
      some (((chunks.zip digests).map
        (fun e => strBytes e.1.filename ++ be64 e.1.size ++ e.2)).flatten) := by
  intro chunks digests h
  induction h with
  | nil => rfl
  | @cons ch d chs ds hpd htl ih =>
      obtain ⟨hsha, _, hlt⟩ := hpd
      simp only [chunksPayload, hsha, hexDecode_hexEncode d hlt, ih]
      simp [List.append_assoc]

/-! ## Claim theorems -/

/-- Claim C1: for every byte sequence and every chunk size greater than zero,
reassembling from the manifest and the chunk files written by `shard_file`
returns exactly the original bytes, with no error signalled. -/
theorem split_reassemble_roundtrip (c : Nat) (name : String) (data : List Nat)
    (hc : 0 < c) : splitThenReassemble c name data = .ok data := by
  obtain ⟨cid, hsf⟩ := shard_file_ok c name data data.length
  unfold splitThenReassemble
  rw [hsf]
  exact reassemble_writeStore c name cid data hc

theorem split_reassemble_roundtrip_witness :
    0 < 2 ∧ splitThenReassemble 2 "rt" [1, 2, 3] = .ok [1, 2, 3] :=
  ⟨by decide, split_reassemble_roundtrip 2 "rt" [1, 2, 3] (by decide)⟩

/-- Claim C2 (amended): every manifest returned by `shard_file` records the
sequence index `i` in the `i`-th chunk's filename, and its `chunk_count` is
the chunk-list length reduced modulo `2 ^ 32` (the `u32` cast; equal to the
length outright whenever fewer than `2 ^ 32` chunks exist).  The byte-length
sum equals `total_size` when the source delivers exactly the declared number
of bytes; a truncated source instead keeps the declared length in
`total_size` while the chunks sum to the bytes actually read. -/
theorem manifest_invariants_amended (c : Nat) (name : String) (data : List Nat)
    (total : Nat) (md : ShardMetadata) (st : Store) (hc : 0 < c)
    (hok : shard_file c name data total = .ok (md, st)) :
    (∀ i, i < md.chunks.length → (md.chunks.getD i dummyChunk).filename = chunkFilename i) ∧
    md.chunk_count = md.chunks.length % 4294967296 ∧
    (total = data.length → (md.chunks.map (fun ch => ch.size)).sum = md.total_size) := by
  obtain ⟨hchunks, htotal, hcount⟩ := shard_ok_inv c name data total md st hok
  refine ⟨?_, ?_, ?_⟩
  · intro i hi
    rw [hchunks] at hi ⊢
    rw [chunkInfos_length] at hi
    rw [chunkInfos_getD _ i 0 hi]
    simp [mkChunkInfo]
  · rw [hcount, hchunks]
  · intro hdl
    subst hdl
    rw [hchunks, chunkInfos_map_size, htotal]
    rw [show ((shardPieces c data.length data).map List.length).sum
        = (shardPieces c data.length data).flatten.length from (List.length_flatten _).symm]
    rw [shardPieces_join c hc data]

/-- Claim C2 counterexample: a source that delivers one byte while declaring
three yields a manifest whose chunk lengths sum to 1 but whose recorded total
stays 3, so the sum invariant does not hold universally over all sources. -/
theorem manifest_sum_invariant_cex :
    (okPart (shard_file 2 "cx" [7] 3)).map
      (fun r => ((r.1.chunks.map (fun ch => ch.size)).sum, r.1.total_size)) = some (1, 3) ∧
    (1 : Nat) ≠ 3 :=
  ⟨rfl, by decide⟩

theorem manifest_invariants_amended_witness :
    (shardW2.1.chunks.getD 0 dummyChunk).filename = chunkFilename 0 ∧
    shardW2.1.chunk_count = shardW2.1.chunks.length % 4294967296 ∧
    (shardW2.1.chunks.map (fun ch => ch.size)).sum = shardW2.1.total_size := by
  have h := manifest_invariants_amended 2 "w2" [5, 6] 2 shardW2.1 shardW2.2 (by decide) rfl
  exact ⟨h.1 0 (by decide), h.2.1, h.2.2 rfl⟩

/-- Claim C3: the composite identifier is the CIDv1 / raw-codec / SHA2-256
text rendering of the digest of exactly the stream: source-name bytes, total
length as 8 big-endian bytes, then each chunk's filename bytes, byte length
as 8 big-endian bytes and 32-byte digest, in order; and equal inputs always
yield the same string. -/
theorem global_cid_stream_deterministic :
    (∀ (name : String) (total : Nat) (chunks : List ChunkInfo) (digests : List (List Nat)),
      List.Forall₂ (fun ch d => ch.sha256 = hexEncode d ∧ d.length = 32 ∧ ∀ b ∈ d, b < 256)
        chunks digests →
      generate_global_cid chunks name total =
        .ok (cidRender (sha256 (compositeStream name total (chunks.zip digests))))) ∧
    (∀ (chunks1 chunks2 : List ChunkInfo) (name1 name2 : String) (total1 total2 : Nat),
      chunks1 = chunks2 → name1 = name2 → total1 = total2 →
      generate_global_cid chunks1 name1 total1 = generate_global_cid chunks2 name2 total2) := by
  constructor
  · intro name total chunks digests h
    unfold generate_global_cid
    rw [chunksPayload_of_forall2 chunks digests h]
    rfl
  · intro c1 c2 n1 n2 t1 t2 h1 h2 h3
    subst h1; subst h2; subst h3
    rfl

theorem global_cid_stream_deterministic_witness :
    generate_global_cid [chunkW3] "w3" 1 =
      .ok (cidRender (sha256 (compositeStream "w3" 1 ([chunkW3].zip [sha256 [7]])))) ∧
    generate_global_cid [] "d" 5 = generate_global_cid [] "d" 5 :=
  ⟨global_cid_stream_deterministic.1 "w3" 1 [chunkW3] [sha256 [7]]
      (List.Forall₂.cons ⟨rfl, by decide, by decide⟩ List.Forall₂.nil),
   global_cid_stream_deterministic.2 [] [] "d" "d" 5 5 rfl rfl rfl⟩

/-- Claim C4: when the source delivers exactly its declared length, a zero
total gives zero chunks; a total divisible by the chunk size gives
`total / c` chunks of size `c`; otherwise `(total + c - 1) / c` chunks, all
of size `c` except the last of size `total % c`. -/
theorem chunk_count_and_sizes (c : Nat) (name : String) (data : List Nat) (total : Nat)
    (md : ShardMetadata) (st : Store) (hc : 0 < c) (htotal : total = data.length)
    (hok : shard_file c name data total = .ok (md, st)) :
    (total = 0 → md.chunks = []) ∧
    (total % c = 0 → md.chunks.length = total / c ∧
      md.chunks.map (fun ch => ch.size) = List.replicate (total / c) c) ∧
    (total % c ≠ 0 → md.chunks.map (fun ch => ch.size) =
      List.replicate (total / c) c ++ [total % c] ∧
      md.chunks.length = (total + c - 1) / c) := by
  obtain ⟨hchunks, _, _⟩ := shard_ok_inv c name data total md st hok
  subst htotal
  have hmap : md.chunks.map (fun ch => ch.size) =
      List.replicate (data.length / c) c ++
        (if data.length % c = 0 then [] else [data.length % c]) := by
    rw [hchunks, chunkInfos_map_size, shardPieces_map_length c hc data]
  have hlen : md.chunks.length =
      (List.replicate (data.length / c) c ++
        (if data.length % c = 0 then [] else [data.length % c])).length := by
    have := congrArg List.length hmap
    simpa using this
  refine ⟨?_, ?_, ?_⟩
  · intro h0
    have hnil : md.chunks.map (fun ch => ch.size) = [] := by
      rw [hmap, h0]
      simp
    exact List.map_eq_nil_iff.mp hnil
  · intro hmod
    constructor
    · rw [hlen, if_pos hmod]
      simp
    · rw [hmap, if_pos hmod]
      simp
  · intro hmod
    constructor
    · rw [hmap, if_neg hmod]
    · rw [hlen, if_neg hmod]
      simp only [List.length_append, List.length_replicate, List.length_cons,
        List.length_nil]
      have hr : data.length % c < c := Nat.mod_lt _ hc
      rw [show data.length + c - 1 = c * (data.length / c + 1) + (data.length % c - 1) from by
        rw [Nat.mul_add, Nat.mul_one]
        have hq := Nat.div_add_mod data.length c
        omega]
      rw [Nat.mul_add_div hc]
      rw [Nat.div_eq_of_lt (by omega : data.length % c - 1 < c)]

theorem chunk_count_and_sizes_witness :
    shardW4.1.chunks.map (fun ch => ch.size) = List.replicate (3 / 2) 2 ++ [3 % 2] ∧
    shardW4.1.chunks.length = (3 + 2 - 1) / 2 := by
  have h := chunk_count_and_sizes 2 "w4" [7, 8, 9] 3 shardW4.1 shardW4.2 (by decide) rfl rfl
  exact h.2.2 (by decide)

/-- Claim C5 (amended): `verify(build(L), L')` is false whenever the tree
rebuilt from the candidate leaves has a root digest different from
`build(L)`'s root digest.  Distinct leaf sequences do not always give
distinct root digests: appending a copy of the last leaf of an odd-length
sequence rebuilds the identical tree (the odd node is already paired with a
clone of itself), and `verify` then returns true although the sequences
differ. -/
theorem verify_rejects_different_root (L Lp : List (List Nat)) (t tp : MerkleNode)
    (hL : build_merkle_tree L = some t) (hLp : build_merkle_tree Lp = some tp)
    (hne : t.hash ≠ tp.hash) :
    verifyAgainst (build_merkle_tree L) Lp = false := by
  rw [hL]
  show t.verify Lp = false
  exact verify_false_of_hash_ne Lp t tp hLp hne

/-- Claim C5 counterexample: the non-empty leaf sequences `[[0],[1],[2]]` and
`[[0],[1],[2],[2]]` differ, yet `verify(build([[0],[1],[2]]))` accepts the
longer one, because duplicating the last odd leaf rebuilds the same tree. -/
theorem verify_rejects_cex :
    ([[0], [1], [2], [2]] : List (List Nat)) ≠ [[0], [1], [2]] ∧
    verifyAgainst (build_merkle_tree [[0], [1], [2]]) [[0], [1], [2], [2]] = true := by
  refine ⟨by decide, ?_⟩
  obtain ⟨t, ht⟩ := build_merkle_tree_isSome [[0], [1], [2], [2]] (by decide)
  have h3 : build_merkle_tree [[0], [1], [2]] = some t := by
    rw [← build_three_eq_build_four]
    exact ht
  rw [h3]
  show t.verify [[0], [1], [2], [2]] = true
  exact verify_self_aux _ t ht

theorem verify_rejects_different_root_witness :
    verifyAgainst (build_merkle_tree [[0]]) [[1]] = false :=
  verify_rejects_different_root [[0]] [[1]] (MerkleNode.new [0]) (MerkleNode.new [1])
    rfl rfl (by decide)

/-- Claim C6: building from three leaves pairs the first two, pairs the third
with a copy of itself, and reduces in two levels to the root
`Hash(Hash(Hash(a) || Hash(b)) || Hash(Hash(c) || Hash(c)))`. -/
theorem build_three_shape (a b c : List Nat) :
    build_merkle_tree [a, b, c] =
      some (MerkleNode.from_children
        (MerkleNode.from_children (MerkleNode.new a) (MerkleNode.new b))
        (MerkleNode.from_children (MerkleNode.new c) (MerkleNode.new c))) ∧
    (build_merkle_tree [a, b, c]).map MerkleNode.hash =
      some (sha256 (sha256 (sha256 a ++ sha256 b) ++ sha256 (sha256 c ++ sha256 c))) := by
  have hshape : build_merkle_tree [a, b, c] =
      some (MerkleNode.from_children
        (MerkleNode.from_children (MerkleNode.new a) (MerkleNode.new b))
        (MerkleNode.from_children (MerkleNode.new c) (MerkleNode.new c))) := rfl
  refine ⟨hshape, ?_⟩
  rw [hshape]
  simp only [Option.map_some', MerkleNode.from_children_hash, MerkleNode.new_hash]

/-- Claim C7: rebuilding a tree from the very leaves it was built from
reproduces the root digest, so `verify(build(L), L)` is true for every
non-empty leaf sequence. -/
theorem verify_build_self (L : List (List Nat)) (hL : L ≠ []) :
    verifyAgainst (build_merkle_tree L) L = true := by
  obtain ⟨t, ht⟩ := build_merkle_tree_isSome L hL
  rw [ht]
  show t.verify L = true
  exact verify_self_aux L t ht

theorem verify_build_self_witness :
    ([[0]] : List (List Nat)) ≠ [] ∧ verifyAgainst (build_merkle_tree [[0]]) [[0]] = true :=
  ⟨by decide, verify_build_self [[0]] (by decide)⟩

/-- Claim C8: if every chunk before position `k` passes its digest check and
chunk `k` is the first stored chunk whose recomputed digest differs from the
recorded one, reassembly fails with a chunk-integrity error naming sequence
index `k`, whatever the later chunks hold. -/
theorem reassemble_first_integrity_error (store : Store) (md : ShardMetadata) (k : Nat)
    (hk : k < md.chunks.length)
    (hgood : ∀ i, i < k → ∃ d, store ((md.chunks.getD i dummyChunk).filename) = some d ∧
        hexEncode (sha256 d) = (md.chunks.getD i dummyChunk).sha256)
    (hbad : ∃ d, store ((md.chunks.getD k dummyChunk).filename) = some d ∧
        hexEncode (sha256 d) ≠ (md.chunks.getD k dummyChunk).sha256) :
    reassemble_file store md = .error (.integrityFailure k) := by
  unfold reassemble_file
  rw [reassembleChunks_first_bad md.chunks store 0 k hk hgood hbad]
  dsimp only
  rw [Nat.zero_add]

theorem reassemble_first_integrity_error_witness :
    reassemble_file storeW8 mdW8 = .error (.integrityFailure 1) := by
  apply reassemble_first_integrity_error storeW8 mdW8 1 (by decide)
  · intro i hi
    interval_cases i
    exact ⟨[5], rfl, rfl⟩
  · exact ⟨[6], rfl, by decide⟩

/-- Claim C9: `verify` rebuilds a tree with the same algorithm and answers
true exactly when the candidate leaves are non-empty and the rebuilt root
digest equals the receiver's digest; an empty candidate list yields false for
every root. -/
theorem verify_characterization (root : MerkleNode) (L : List (List Nat)) :
    (root.verify L = true ↔
      L ≠ [] ∧ (build_merkle_tree L).map MerkleNode.hash = some root.hash) ∧
    root.verify [] = false := by
  constructor
  · by_cases hL : L = []
    · subst hL
      rw [show MerkleNode.verify root [] = false from rfl]
      simp
    · obtain ⟨t, ht⟩ := build_merkle_tree_isSome L hL
      unfold MerkleNode.verify
      rw [ht]
      dsimp only
      constructor
      · intro h
        refine ⟨hL, ?_⟩
        show some t.hash = some root.hash
        rw [Option.some.injEq]
        exact (eq_of_beq h).symm
      · rintro ⟨-, h⟩
        have hth : t.hash = root.hash := Option.some.inj (show some t.hash = some root.hash from h)
        exact beq_iff_eq.mpr hth.symm
  · rfl

/-- Claim C10: building from a single leaf returns that leaf node itself —
digest `Hash(x)`, no children — and the verdict of `verify` depends only on
the receiver's digest field, never on its children. -/
theorem single_leaf_and_hash_only :
    (∀ x : List Nat, build_merkle_tree [x] = some (MerkleNode.mk (sha256 x) none none)) ∧
    (∀ (n1 n2 : MerkleNode) (L : List (List Nat)), n1.hash = n2.hash →
      n1.verify L = n2.verify L) := by
  constructor
  · intro x
    rfl
  · intro n1 n2 L h
    unfold MerkleNode.verify
    cases build_merkle_tree L with
    | none => rfl
    | some t => rw [h]

theorem single_leaf_and_hash_only_witness :
    nodeHashOnlyA.verify [] = nodeHashOnlyB.verify [] :=
  single_leaf_and_hash_only.2 nodeHashOnlyA nodeHashOnlyB [] rfl

end StarlingStore
